import Mathlib

/-!
Verification of the flyway-naming-checker core (`src/naming_checker.rs`).

File names are modelled as `List Char` (the character sequence of a Rust
`&str`; every character involved in the checker's logic is ASCII, so byte
indices and character indices coincide).  Each Rust function of the core is
translated to a Lean definition of the same name; `Result<(), E>` becomes
`Except E Unit`, `Option<u32>` becomes `Option Nat` with the `u32` range
checked explicitly where the Rust type enforces it.
-/

/-- The error enum of the checker (crate `error` module); every variant and
its fields appear literally in `naming_checker.rs`. -/
inductive FlywayNaimngCheckerError : Type
  | FlywayNamingPrefixError (file expected found : List Char)
  | FlywayNamingCanNotFindPrefix (file : List Char)
  | FlywayNamingSufixError (file expected found : List Char)
  | FlywayNamingSeparatorError (file : List Char)
  | FlywayNamingCanNotFindVersion (file : List Char)
  | FlywayNamingVersionError (file pfx found : List Char)
  | DuplicateVersion (file : List Char)
  | SkippedVersion (file : List Char)
  deriving DecidableEq, Repr

open FlywayNaimngCheckerError

deriving instance DecidableEq for Except

/-- Function `is_valid_prefix` from the source: look at the first character; `V`, `U`,
`R` succeed; otherwise a Prefix error whose `expected` starts as `"V"` and is
reassigned to `"u"` or `"r"` when the found character is that letter; an empty
name gives the CanNotFindPrefix error. -/
def is_valid_prefix (file_name : List Char) : Except FlywayNaimngCheckerError Unit :=
  let first_char := file_name.head?
  match first_char with
  | some c =>
    if ¬ (c = 'V' ∨ c = 'U' ∨ c = 'R') then
      let e0 : List Char := ['V']
      let e1 : List Char := if c = 'u' then ['u'] else e0
      let e2 : List Char := if c = 'r' then ['r'] else e1
      .error (FlywayNamingPrefixError file_name e2 [c])
    else
      .ok ()
  | none => .error (FlywayNamingCanNotFindPrefix file_name)

/-- The characters strictly after the last `'.'` of the list, `none` when no
`'.'` occurs; models `file_name.rfind('.')` followed by the slice
`&file_name[dot_index + 1..]` (`'.'` is one byte, so the slice is exactly the
characters after the last dot). -/
def afterLastDot : List Char → Option (List Char)
  | [] => none
  | c :: rest =>
    match afterLastDot rest with
    | some s => some s
    | none => if c = '.' then some rest else none

/-- Function `is_valid_suffix` from the source: if a `'.'` exists, the part after the
last one must be exactly `"sql"`, else a Suffix error; with no `'.'` the check
passes. -/
def is_valid_suffix (file_name : List Char) : Except FlywayNaimngCheckerError Unit :=
  match afterLastDot file_name with
  | some suffix =>
    if suffix ≠ ['s', 'q', 'l'] then
      .error (FlywayNamingSufixError file_name ['.', 's', 'q', 'l'] suffix)
    else
      .ok ()
  | none => .ok ()

/-- Splitting on the two-character separator `"__"`, with Rust `str::split`
semantics: leftmost matches, non-overlapping, and `n` separator occurrences
produce `n + 1` parts (so the result is never empty; the final catch-all
branch of the inner match is unreachable). -/
def splitOnSep : List Char → List (List Char)
  | [] => [[]]
  | [c] => [[c]]
  | c :: c' :: rest =>
    if c = '_' ∧ c' = '_' then
      [] :: splitOnSep rest
    else
      match splitOnSep (c' :: rest) with
      | part :: parts => (c :: part) :: parts
      | [] => [[c]]

/-- Function `is_valid_sepeartor` from the source (name kept, typo included): split on
`"__"` and require exactly two parts. -/
def is_valid_sepeartor (file_name : List Char) : Except FlywayNaimngCheckerError Unit :=
  let parts := splitOnSep file_name
  if parts.length ≠ 2 then
    .error (FlywayNamingSeparatorError file_name)
  else
    .ok ()

/-- Function `is_valid_version` from the source: on `V`/`U` the second character must
be an ASCII digit (Version error when not, CanNotFindVersion when absent);
`R` always succeeds; any other first character gives the Prefix error with
expected `"V"`; an empty name gives CanNotFindPrefix. -/
def is_valid_version (file_name : List Char) : Except FlywayNaimngCheckerError Unit :=
  match file_name.head? with
  | some first_char =>
    if first_char = 'V' ∨ first_char = 'U' then
      match file_name[1]? with
      | none => .error (FlywayNamingCanNotFindVersion file_name)
      | some second_char =>
        if second_char.isDigit then
          .ok ()
        else
          .error (FlywayNamingVersionError file_name [first_char] [second_char])
    else if first_char = 'R' then
      .ok ()
    else
      .error (FlywayNamingPrefixError file_name ['V'] [first_char])
  | none => .error (FlywayNamingCanNotFindPrefix file_name)

/-- Decimal value of a digit string, most significant first; the accumulator
step of the usual base-10 parse. -/
def digitsVal (s : List Char) : Nat :=
  s.foldl (fun acc c => acc * 10 + (c.toNat - 48)) 0

/-- Models `str::parse::<u32>().ok()`: an optional leading `'+'` followed by a
nonempty run of ASCII digits whose value fits in `u32`; anything else is
`none`. -/
def parseU32 (s : List Char) : Option Nat :=
  let digits := if s.head? = some '+' then s.tail else s
  if digits ≠ [] ∧ digits.all Char.isDigit ∧ digitsVal digits < 4294967296 then
    some (digitsVal digits)
  else
    none

/-- Function `extract_version` from the source: split on `"__"`; unless exactly two
parts, no version; otherwise strip the leading non-digit characters of the
first part (`trim_start_matches`) and parse the remainder as a `u32`. -/
def extract_version (file_name : List Char) : Option Nat :=
  let parts := splitOnSep file_name
  if parts.length ≠ 2 then
    none
  else
    let version_part := parts.headI.dropWhile (fun c => !c.isDigit)
    parseU32 version_part

/-- The loop of `check_for_duplicate_versions`: the `HashSet<u32>` is modelled
as the list of versions inserted so far (`insert` returning `false` is the
membership test). -/
def duplicatesLoop (versions : List Nat) :
    List (List Char) → Except FlywayNaimngCheckerError Unit
  | [] => .ok ()
  | file_name :: rest =>
    match extract_version file_name with
    | some version =>
      if version ∈ versions then
        .error (DuplicateVersion file_name)
      else
        duplicatesLoop (version :: versions) rest
    | none => duplicatesLoop versions rest

/-- Function `check_for_duplicate_versions` from the source: walk the list in order,
failing on the first file whose extracted version was already seen. -/
def check_for_duplicate_versions (file_names : List (List Char)) :
    Except FlywayNaimngCheckerError Unit :=
  duplicatesLoop [] file_names

/-- The `format!("From V{} to V{}", a, b)` message of the skipped-version
error. -/
def fromToMsg (a b : Nat) : List Char :=
  ("From V".toList) ++ Nat.toDigits 10 a ++ (" to V".toList) ++ Nat.toDigits 10 b

/-- The `windows(2)` loop of `check_for_skipped_versions`: on the first
adjacent pair with `window[1] != window[0] + 1` (the `+ 1` is `u32` addition,
hence the reduction modulo `2 ^ 32`), fail with the formatted message. -/
def windowsLoop : List Nat → Except FlywayNaimngCheckerError Unit
  | w0 :: w1 :: rest =>
    if w1 ≠ (w0 + 1) % 4294967296 then
      .error (SkippedVersion (fromToMsg w0 w1))
    else
      windowsLoop (w1 :: rest)
  | _ => .ok ()

/-- Function `check_for_skipped_versions` from the source: collect the extractable
versions, succeed when there are none, otherwise sort ascending
(`sort_unstable`; on `Nat` any ascending sort yields the one sorted
permutation) and run the adjacent-pair check. -/
def check_for_skipped_versions (file_names : List (List Char)) :
    Except FlywayNaimngCheckerError Unit :=
  let versions := file_names.filterMap extract_version
  if versions.isEmpty then
    .ok ()
  else
    windowsLoop (versions.insertionSort (· ≤ ·))

/-- Spec-side count of the (leftmost, non-overlapping) occurrences of the
separator `"__"` in a name, as the splitter counts them. -/
def countSep : List Char → Nat
  | [] => 0
  | [_] => 0
  | c :: c' :: rest =>
    if c = '_' ∧ c' = '_' then countSep rest + 1 else countSep (c' :: rest)

/-- Spec-side contiguity scan: the first adjacent pair of the (sorted) version
list whose difference is not exactly 1, duplicates (difference 0) included. -/
def spec_first_violation : List Nat → Option (Nat × Nat)
  | a :: b :: rest => if b ≠ a + 1 then some (a, b) else spec_first_violation (b :: rest)
  | _ => none

/-- Spec-side view of the version list the skipped-version check inspects: the
extractable versions, sorted ascending. -/
def spec_sorted_versions (file_names : List (List Char)) : List Nat :=
  (file_names.filterMap extract_version).insertionSort (· ≤ ·)

/-- Spec-side outcome of the contiguity check on a version list: success when
no adjacent pair violates contiguity, otherwise the skipped-version error for
the first violating pair. -/
def spec_skipped_result (l : List Nat) : Except FlywayNaimngCheckerError Unit :=
  match spec_first_violation l with
  | none => .ok ()
  | some (a, b) => .error (SkippedVersion (fromToMsg a b))

/-! ## Helper lemmas -/

theorem splitOnSep_ne_nil : ∀ (s : List Char), splitOnSep s ≠ []
  | [] => by simp [splitOnSep]
  | [c] => by simp [splitOnSep]
  | c :: c' :: rest => by
    by_cases h : c = '_' ∧ c' = '_'
    · simp [splitOnSep, h]
    · simp only [splitOnSep, if_neg h]
      cases hs : splitOnSep (c' :: rest) with
      | nil => simp
      | cons p ps => simp

theorem splitOnSep_length : ∀ (s : List Char), (splitOnSep s).length = countSep s + 1
  | [] => by simp [splitOnSep, countSep]
  | [c] => by simp [splitOnSep, countSep]
  | c :: c' :: rest => by
    by_cases h : c = '_' ∧ c' = '_'
    · simp [splitOnSep, countSep, h, splitOnSep_length rest]
    · have ih := splitOnSep_length (c' :: rest)
      simp only [splitOnSep, countSep, if_neg h]
      cases hs : splitOnSep (c' :: rest) with
      | nil => exact absurd hs (splitOnSep_ne_nil _)
      | cons p ps => rw [hs] at ih; simpa using ih

/-! ## Claims -/

/-- Claim C4: the separator validator succeeds exactly when the name contains
exactly one (leftmost, non-overlapping) occurrence of `"__"`, equivalently
when splitting on `"__"` yields exactly two parts; otherwise it fails with the
Separator error naming the file. -/
theorem is_valid_sepeartor_spec (file_name : List Char) :
    ( is_valid_sepeartor file_name = .ok () ↔ countSep file_name = 1) ∧
    (countSep file_name ≠ 1 →
      is_valid_sepeartor file_name = .error (FlywayNamingSeparatorError file_name)) ∧
    (countSep file_name = 1 ↔ (splitOnSep file_name).length = 2) := by
  have h := splitOnSep_length file_name
  refine ⟨?_, ?_, ?_⟩
  · rw [is_valid_sepeartor]
    rcases eq_or_ne (countSep file_name) 1 with h1 | h1
    · simp [h, h1]
    · rw [if_pos (by omega)]
      simp [h1]
  · intro h1
    rw [is_valid_sepeartor, if_pos (by omega)]
  · omega

theorem is_valid_sepeartor_spec_witness :
    is_valid_sepeartor ("V1_some_migration.sql".toList) =
      .error (FlywayNamingSeparatorError ("V1_some_migration.sql".toList)) :=
  (is_valid_sepeartor_spec _).2.1 (by decide)

/-- Claim C5: the prefix validator succeeds exactly when the first character
is `V`, `U` or `R`; an empty name fails with the field-less CanNotFindPrefix
error; any other first character fails with a Prefix error whose `found` is
that character and whose `expected` is `"V"`, except that for `u` and `r` the
expected value is that same lowercase letter. -/
theorem is_valid_prefix_spec (file_name : List Char) :
    ( is_valid_prefix file_name = .ok () ↔
      ∃ c rest, file_name = c :: rest ∧ (c = 'V' ∨ c = 'U' ∨ c = 'R')) ∧
    (file_name = [] →
      is_valid_prefix file_name = .error (FlywayNamingCanNotFindPrefix file_name)) ∧
    (∀ c rest, file_name = c :: rest → ¬ (c = 'V' ∨ c = 'U' ∨ c = 'R') →
      is_valid_prefix file_name = .error (FlywayNamingPrefixError file_name
        (if c = 'u' then ['u'] else if c = 'r' then ['r'] else ['V']) [c])) := by
  refine ⟨?_, ?_, ?_⟩
  · cases file_name with
    | nil => simp [ is_valid_prefix]
    | cons c rest =>
      by_cases h : c = 'V' ∨ c = 'U' ∨ c = 'R'
      · simp [ is_valid_prefix, h]
      · simp [ is_valid_prefix, h]
  · intro h
    subst h
    simp [ is_valid_prefix]
  · intro c rest h hn
    subst h
    rw [ is_valid_prefix]
    simp only [List.head?_cons, if_pos hn]
    by_cases hu : c = 'u' <;> by_cases hr : c = 'r'
    · exact absurd (hu ▸ hr) (by decide)
    · simp [hu, hr]
    · simp [hu, hr]
    · simp [hu, hr]

theorem is_valid_prefix_spec_witness :
    is_valid_prefix ("u1__x.sql".toList) =
      .error (FlywayNamingPrefixError ("u1__x.sql".toList) ['u'] ['u']) :=
  ( is_valid_prefix_spec _).2.2 'u' ("1__x.sql".toList) rfl (by decide)

/-- Claim C6: full case analysis of the version validator. -/
theorem is_valid_version_spec (file_name : List Char) :
    (file_name = [] →
      is_valid_version file_name = .error (FlywayNamingCanNotFindPrefix file_name)) ∧
    (∀ c, file_name = [c] → (c = 'V' ∨ c = 'U') →
      is_valid_version file_name = .error (FlywayNamingCanNotFindVersion file_name)) ∧
    (∀ c d rest, file_name = c :: d :: rest → (c = 'V' ∨ c = 'U') → d.isDigit →
      is_valid_version file_name = .ok ()) ∧
    (∀ c d rest, file_name = c :: d :: rest → (c = 'V' ∨ c = 'U') → ¬ d.isDigit →
      is_valid_version file_name =
        .error (FlywayNamingVersionError file_name [c] [d])) ∧
    (∀ c rest, file_name = c :: rest → c = 'R' →
      is_valid_version file_name = .ok ()) ∧
    (∀ c rest, file_name = c :: rest → ¬ (c = 'V' ∨ c = 'U' ∨ c = 'R') →
      is_valid_version file_name =
        .error (FlywayNamingPrefixError file_name ['V'] [c])) := by
  refine ⟨?_, ?_, ?_, ?_, ?_, ?_⟩
  · intro h; subst h; simp [is_valid_version]
  · intro c h hc; subst h; simp [is_valid_version, hc]
  · intro c d rest h hc hd; subst h; simp [is_valid_version, hc, hd]
  · intro c d rest h hc hd; subst h; simp [is_valid_version, hc, hd]
  · intro c rest h hc; subst h hc
    have : ¬ ('R' = 'V' ∨ 'R' = 'U') := by decide
    simp [is_valid_version, this]
  · intro c rest h hc; subst h
    have h1 : ¬ (c = 'V' ∨ c = 'U') := fun h' => hc (h'.elim Or.inl (Or.inr ∘ Or.inl))
    have h2 : ¬ c = 'R' := fun h' => hc (Or.inr (Or.inr h'))
    simp [is_valid_version, h1, h2]

theorem is_valid_version_spec_witness :
    is_valid_version ("Vb__some_migration.sql".toList) =
      .error (FlywayNamingVersionError ("Vb__some_migration.sql".toList) ['V'] ['b']) :=
  (is_valid_version_spec _).2.2.2.1 'V' 'b' ("__some_migration.sql".toList)
    rfl (Or.inl rfl) (by decide)

theorem afterLastDot_eq_none_iff : ∀ (s : List Char), afterLastDot s = none ↔ '.' ∉ s
  | [] => by simp [afterLastDot]
  | c :: rest => by
    have ih := afterLastDot_eq_none_iff rest
    simp only [afterLastDot]
    cases h : afterLastDot rest with
    | some s' =>
      have hmem : '.' ∈ rest := by
        by_contra hc
        rw [← ih] at hc
        simp [h] at hc
      simp [hmem]
    | none =>
      have ih' : '.' ∉ rest := ih.mp h
      by_cases hc : c = '.'
      · subst hc; simp
      · rw [if_neg hc]
        simp only [List.mem_cons, true_iff]
        exact fun he => he.elim (fun h1 => hc h1.symm) (fun h2 => ih' h2)

theorem afterLastDot_some : ∀ (s t : List Char), afterLastDot s = some t →
    '.' ∉ t ∧ ∃ pre, s = pre ++ '.' :: t
  | [], t => by simp [afterLastDot]
  | c :: rest, t => by
    simp only [afterLastDot]
    cases h : afterLastDot rest with
    | some s' =>
      intro he
      rw [Option.some.injEq] at he
      subst he
      obtain ⟨hnd, pre, hpre⟩ := afterLastDot_some rest s' h
      exact ⟨hnd, c :: pre, by simp [hpre]⟩
    | none =>
      by_cases hc : c = '.'
      · subst hc
        rw [if_pos rfl]
        intro he
        rw [Option.some.injEq] at he
        subst he
        exact ⟨(afterLastDot_eq_none_iff rest).mp h, [], rfl⟩
      · simp [hc]

/-- Claim C7: the suffix validator passes names with no dot, passes names
whose part after the last dot is exactly `"sql"` (case-sensitively), and
otherwise fails with a Suffix error carrying that part as `found` and `".sql"`
as `expected`. -/
theorem is_valid_suffix_spec (file_name : List Char) :
    ('.' ∉ file_name → is_valid_suffix file_name = .ok ()) ∧
    (∀ t, afterLastDot file_name = some t →
      '.' ∉ t ∧ ∃ pre, file_name = pre ++ '.' :: t) ∧
    (afterLastDot file_name = some ['s', 'q', 'l'] →
      is_valid_suffix file_name = .ok ()) ∧
    (∀ suffix, afterLastDot file_name = some suffix → suffix ≠ ['s', 'q', 'l'] →
      is_valid_suffix file_name =
        .error (FlywayNamingSufixError file_name ['.', 's', 'q', 'l'] suffix)) := by
  refine ⟨?_, ?_, ?_, ?_⟩
  · intro h
    rw [is_valid_suffix, (afterLastDot_eq_none_iff file_name).mpr h]
  · exact fun t => afterLastDot_some file_name t
  · intro h
    rw [is_valid_suffix, h]
    simp
  · intro suffix h hne
    rw [is_valid_suffix, h]
    simp [hne]

theorem is_valid_suffix_spec_witness :
    is_valid_suffix ("X.SQL".toList) =
      .error (FlywayNamingSufixError ("X.SQL".toList) ['.', 's', 'q', 'l'] ['S', 'Q', 'L']) :=
  (is_valid_suffix_spec _).2.2.2 ['S', 'Q', 'L'] (by decide) (by decide)

theorem dropWhile_nonDigit_head_ne_plus (a : List Char) :
    (a.dropWhile (fun c => !c.isDigit)).head? ≠ some '+' := by
  induction a with
  | nil => simp
  | cons c rest ih =>
    by_cases h : (!c.isDigit) = true
    · simpa [List.dropWhile_cons, h] using ih
    · have hd : c.isDigit := by simpa using h
      have hc : c ≠ '+' := by
        intro he
        rw [he] at hd
        exact absurd hd (by decide)
      simp [List.dropWhile_cons, hd, hc]

theorem parseU32_eq (s : List Char) (h : s.head? ≠ some '+') :
    parseU32 s =
      if s ≠ [] ∧ s.all Char.isDigit ∧ digitsVal s < 4294967296 then
        some (digitsVal s)
      else none := by
  rw [parseU32]
  simp only [if_neg h]

theorem parseU32_lt (s : List Char) (v : Nat) (h : parseU32 s = some v) :
    v < 4294967296 := by
  rw [parseU32] at h
  split at h
  · split at h
    · rename_i hcond
      rw [Option.some.injEq] at h
      omega
    · exact absurd h (by simp)
  · split at h
    · rename_i hcond
      rw [Option.some.injEq] at h
      omega
    · exact absurd h (by simp)

theorem extract_version_lt (s : List Char) (v : Nat)
    (h : extract_version s = some v) : v < 4294967296 := by
  rw [extract_version] at h
  split at h
  · exact absurd h (by simp)
  · exact parseU32_lt _ _ h

theorem extract_version_some_iff (file_name : List Char) (v : Nat) :
    extract_version file_name = some v ↔
      ∃ a b, splitOnSep file_name = [a, b] ∧
        a.dropWhile (fun c => !c.isDigit) ≠ [] ∧
        (a.dropWhile (fun c => !c.isDigit)).all Char.isDigit ∧
        digitsVal (a.dropWhile (fun c => !c.isDigit)) < 4294967296 ∧
        v = digitsVal (a.dropWhile (fun c => !c.isDigit)) := by
  constructor
  · intro h
    rw [extract_version] at h
    split at h
    · exact absurd h (by simp)
    · rename_i hlen
      match hs : splitOnSep file_name with
      | [] => exact absurd hs (splitOnSep_ne_nil _)
      | [a] => rw [hs] at hlen; simp at hlen
      | a :: b :: c :: l => rw [hs] at hlen; simp at hlen
      | [a, b] =>
        rw [hs] at h
        simp only [List.headI] at h
        rw [parseU32_eq _ (dropWhile_nonDigit_head_ne_plus a)] at h
        split at h
        · rename_i hcond
          rw [Option.some.injEq] at h
          exact ⟨a, b, rfl, hcond.1, hcond.2.1, hcond.2.2, h.symm⟩
        · exact absurd h (by simp)
  · rintro ⟨a, b, hs, h1, h2, h3, hv⟩
    rw [extract_version]
    rw [hs]
    simp only [List.length_cons, List.length_nil]
    rw [if_neg (by omega)]
    simp only [List.headI]
    rw [parseU32_eq _ (dropWhile_nonDigit_head_ne_plus a)]
    rw [if_pos ⟨h1, h2, h3⟩, hv]

/-- Claim C8: the extractor yields a value exactly when the name splits on
`"__"` into exactly two parts and the first part, after dropping its leading
non-digit characters, is a nonempty all-digit string whose value fits in
`u32`, the yielded value being that number; no `V`/`U`/`R` shape is required
(witnessed by the `X`-prefixed name). -/
theorem extract_version_spec (file_name : List Char) :
    (∀ v, extract_version file_name = some v ↔
      ∃ a b, splitOnSep file_name = [a, b] ∧
        a.dropWhile (fun c => !c.isDigit) ≠ [] ∧
        (a.dropWhile (fun c => !c.isDigit)).all Char.isDigit ∧
        digitsVal (a.dropWhile (fun c => !c.isDigit)) < 4294967296 ∧
        v = digitsVal (a.dropWhile (fun c => !c.isDigit))) ∧
    extract_version ("X1__a".toList) = some 1 :=
  ⟨fun v => extract_version_some_iff file_name v, by decide⟩

theorem extract_version_spec_witness :
    ∃ a b, splitOnSep ("V7__x.sql".toList) = [a, b] ∧
      a.dropWhile (fun c => !c.isDigit) ≠ [] ∧
      (a.dropWhile (fun c => !c.isDigit)).all Char.isDigit ∧
      digitsVal (a.dropWhile (fun c => !c.isDigit)) < 4294967296 ∧
      7 = digitsVal (a.dropWhile (fun c => !c.isDigit)) :=
  ((extract_version_spec _).1 7).mp (by decide)

theorem dropWhile_nonDigit_of_all_digits (ds : List Char) (h : ds.all Char.isDigit) :
    ds.dropWhile (fun c => !c.isDigit) = ds := by
  cases ds with
  | nil => rfl
  | cons d rest =>
    have hd : d.isDigit := by
      rw [List.all_cons, Bool.and_eq_true] at h
      exact h.1
    simp [List.dropWhile_cons, hd]

/-- Claim C1, counterexample: the name `R__x.sql` is accepted by the version
validator but the extractor yields no version (after the prefix letter `R` is
stripped nothing is left to parse), so validator acceptance does not imply a
successful extraction. -/
theorem is_valid_version_extract_version_counterexample :
    is_valid_version ("R__x.sql".toList) = .ok () ∧
    extract_version ("R__x.sql".toList) = none := by
  constructor
  · decide
  · decide

/-- Claim C1 as amended: validator acceptance alone does not force a version;
it does for the well-formed shapes, namely a name accepted by the version
validator that starts with `V` or `U`, splits on `"__"` into exactly two
parts, and whose first part is the prefix character followed by a nonempty
all-digit run with value inside the `u32` range — there the extractor yields
exactly that number. -/
theorem is_valid_version_extract_version_amended (file_name : List Char)
    (c : Char) (ds rest : List Char)
    (_hok : is_valid_version file_name = .ok ())
    (hc : c = 'V' ∨ c = 'U')
    (hsplit : splitOnSep file_name = [c :: ds, rest])
    (hne : ds ≠ [])
    (hdig : ds.all Char.isDigit)
    (hlt : digitsVal ds < 4294967296) :
    extract_version file_name = some (digitsVal ds) := by
  have hcnd : (!c.isDigit) = true := by
    rcases hc with h | h <;> subst h <;> decide
  have hdrop : (c :: ds).dropWhile (fun x => !x.isDigit) = ds := by
    rw [List.dropWhile_cons, if_pos hcnd]
    exact dropWhile_nonDigit_of_all_digits ds hdig
  refine (extract_version_some_iff file_name (digitsVal ds)).mpr ?_
  exact ⟨c :: ds, rest, hsplit, by rw [hdrop]; exact hne,
    by rw [hdrop]; exact hdig, by rw [hdrop]; exact hlt, by rw [hdrop]⟩

theorem is_valid_version_extract_version_amended_witness :
    extract_version ("V1__a.sql".toList) = some 1 :=
  is_valid_version_extract_version_amended ("V1__a.sql".toList) 'V' ['1']
    ("a.sql".toList) (by decide) (Or.inl rfl) (by decide) (by decide)
    (by decide) (by decide)

theorem duplicatesLoop_ok_iff : ∀ (files : List (List Char)) (seen : List Nat),
    duplicatesLoop seen files = .ok () ↔
      ((files.filterMap extract_version).Nodup ∧
        ∀ v ∈ files.filterMap extract_version, v ∉ seen)
  | [], seen => by simp [duplicatesLoop]
  | f :: rest, seen => by
    cases hf : extract_version f with
    | none =>
      have ih := duplicatesLoop_ok_iff rest seen
      simp [duplicatesLoop, hf, List.filterMap_cons, ih]
    | some v =>
      by_cases hv : v ∈ seen
      · simp only [duplicatesLoop, hf, if_pos hv, List.filterMap_cons]
        constructor
        · intro h
          exact absurd h (by simp)
        · rintro ⟨-, h2⟩
          exact absurd (h2 v (by simp)) (by simp [hv])
      · have ih := duplicatesLoop_ok_iff rest (v :: seen)
        simp only [duplicatesLoop, hf, if_neg hv, ih,
          List.filterMap_cons_some hf, List.nodup_cons]
        constructor
        · rintro ⟨h1, h2⟩
          refine ⟨⟨fun hvm => ?_, h1⟩, fun w hw => ?_⟩
          · exact h2 v hvm (List.mem_cons_self v seen)
          · rcases List.mem_cons.mp hw with he | hw'
            · exact he ▸ hv
            · exact fun hws => h2 w hw' (List.mem_cons_of_mem v hws)
        · rintro ⟨⟨h0, h1⟩, h2⟩
          refine ⟨h1, fun w hw hws => ?_⟩
          rcases List.mem_cons.mp hws with he | hws'
          · exact h0 (he ▸ hw)
          · exact h2 w (List.mem_cons_of_mem v hw) hws'

theorem duplicatesLoop_error_at :
    ∀ (l1 : List (List Char)) (seen : List Nat) (f : List Char)
      (l2 : List (List Char)) (v : Nat),
    extract_version f = some v →
    (l1.filterMap extract_version).Nodup →
    (∀ w ∈ l1.filterMap extract_version, w ∉ seen) →
    (v ∈ seen ∨ v ∈ l1.filterMap extract_version) →
    duplicatesLoop seen (l1 ++ f :: l2) = .error (DuplicateVersion f)
  | [], seen, f, l2, v => by
    intro hf _ _ hv
    simp only [List.filterMap_nil, List.not_mem_nil, or_false] at hv
    simp [duplicatesLoop, hf, hv]
  | g :: l1, seen, f, l2, v => by
    intro hf hnd hdisj hv
    cases hg : extract_version g with
    | none =>
      rw [List.filterMap_cons_none hg] at hnd hdisj hv
      simpa [duplicatesLoop, hg] using
        duplicatesLoop_error_at l1 seen f l2 v hf hnd hdisj hv
    | some w =>
      rw [List.filterMap_cons_some hg] at hnd hdisj hv
      rw [List.nodup_cons] at hnd
      have hw : w ∉ seen := hdisj w (by simp)
      rw [List.cons_append]
      rw [duplicatesLoop]
      simp only [hg, if_neg hw]
      apply duplicatesLoop_error_at l1 (w :: seen) f l2 v hf hnd.2
      · intro u hu
        simp only [List.mem_cons, not_or]
        exact ⟨fun he => hnd.1 (he ▸ hu), hdisj u (by simp [hu])⟩
      · rcases hv with hv | hv
        · exact Or.inl (by simp [hv])
        · rcases List.mem_cons.mp hv with hv | hv
          · exact Or.inl (by simp [hv])
          · exact Or.inr hv

/-- Claim C3: the duplicate checker succeeds exactly when no extractable
version repeats; when the extractable versions of a proper initial segment
are duplicate-free and the next file's version already occurred among them,
it fails naming that file (the second occurrence). Files without an
extractable version do not take part. -/
theorem check_for_duplicate_versions_spec (file_names : List (List Char)) :
    (check_for_duplicate_versions file_names = .ok () ↔
      (file_names.filterMap extract_version).Nodup) ∧
    (∀ l1 f l2 v, file_names = l1 ++ f :: l2 →
      extract_version f = some v →
      (l1.filterMap extract_version).Nodup →
      v ∈ l1.filterMap extract_version →
      check_for_duplicate_versions file_names = .error (DuplicateVersion f)) := by
  constructor
  · rw [check_for_duplicate_versions, duplicatesLoop_ok_iff]
    simp
  · intro l1 f l2 v he hf hnd hv
    rw [he, check_for_duplicate_versions]
    exact duplicatesLoop_error_at l1 [] f l2 v hf hnd (by simp) (Or.inr hv)

theorem check_for_duplicate_versions_spec_witness :
    check_for_duplicate_versions
        ["V1__a.sql".toList, "V2__b.sql".toList, "V1__c.sql".toList] =
      .error (DuplicateVersion ("V1__c.sql".toList)) :=
  (check_for_duplicate_versions_spec _).2
    ["V1__a.sql".toList, "V2__b.sql".toList] ("V1__c.sql".toList) [] 1
    rfl (by decide) (by decide) (by decide)

/-- Claim C9: duplicate detection is purely numeric — any two names whose
extracted versions coincide collide, whatever their prefix letters or leading
zeros, and whether or not they pass the per-file validators; the concrete
conjuncts show `V1`, `U1` and the validator-rejected `X01` all extracting 1. -/
theorem check_for_duplicate_versions_numeric (f g : List Char) (v : Nat)
    (hf : extract_version f = some v) (hg : extract_version g = some v) :
    check_for_duplicate_versions [f, g] = .error (DuplicateVersion g) ∧
    extract_version ("V1__a.sql".toList) = some 1 ∧
    extract_version ("U1__b.sql".toList) = some 1 ∧
    extract_version ("X01__c.sql".toList) = some 1 ∧
    is_valid_version ("X01__c.sql".toList) =
      .error (FlywayNamingPrefixError ("X01__c.sql".toList) ['V'] ['X']) := by
  refine ⟨?_, by decide, by decide, by decide, by decide⟩
  rw [check_for_duplicate_versions]
  rw [duplicatesLoop]
  simp only [hf, List.not_mem_nil, if_neg (fun h => h)]
  rw [duplicatesLoop]
  simp [hg]

theorem check_for_duplicate_versions_numeric_witness :
    check_for_duplicate_versions ["V1__a.sql".toList, "U1__b.sql".toList] =
      .error (DuplicateVersion ("U1__b.sql".toList)) :=
  (check_for_duplicate_versions_numeric ("V1__a.sql".toList)
    ("U1__b.sql".toList) 1 (by decide) (by decide)).1

theorem duplicatesLoop_skip_none :
    ∀ (l1 : List (List Char)) (seen : List Nat) (f : List Char)
      (l2 : List (List Char)),
    extract_version f = none →
    duplicatesLoop seen (l1 ++ f :: l2) = duplicatesLoop seen (l1 ++ l2)
  | [], seen, f, l2 => by
    intro hf
    simp [duplicatesLoop, hf]
  | g :: l1, seen, f, l2 => by
    intro hf
    cases hg : extract_version g with
    | none =>
      simp only [List.cons_append, duplicatesLoop, hg]
      exact duplicatesLoop_skip_none l1 seen f l2 hf
    | some w =>
      simp only [List.cons_append, duplicatesLoop, hg]
      by_cases hw : w ∈ seen
      · simp [hw]
      · simp only [if_neg hw]
        exact duplicatesLoop_skip_none l1 (w :: seen) f l2 hf

/-- Claim C10: versions are bounded by the `u32` range — a first part whose
stripped digit run has value at least `2 ^ 32` yields no version (shown both
in general and on `V4294967296__a.sql`), and a file with no extractable
version leaves the outcome of both cross-file checks unchanged wherever it is
inserted. -/
theorem extract_version_u32_bound_spec :
    (∀ file_name a b, splitOnSep file_name = [a, b] →
      4294967296 ≤ digitsVal (a.dropWhile (fun c => !c.isDigit)) →
      extract_version file_name = none) ∧
    extract_version ("V4294967296__a.sql".toList) = none ∧
    (∀ l1 l2 f, extract_version f = none →
      check_for_duplicate_versions (l1 ++ f :: l2) =
        check_for_duplicate_versions (l1 ++ l2) ∧
      check_for_skipped_versions (l1 ++ f :: l2) =
        check_for_skipped_versions (l1 ++ l2)) := by
  refine ⟨?_, by decide, ?_⟩
  · intro file_name a b hs hge
    rw [extract_version, hs]
    simp only [List.length_cons, List.length_nil]
    rw [if_neg (by omega)]
    simp only [List.headI]
    rw [parseU32_eq _ (dropWhile_nonDigit_head_ne_plus a)]
    rw [if_neg (by omega)]
  · intro l1 l2 f hf
    constructor
    · rw [check_for_duplicate_versions, check_for_duplicate_versions]
      exact duplicatesLoop_skip_none l1 [] f l2 hf
    · rw [check_for_skipped_versions, check_for_skipped_versions]
      rw [List.filterMap_append, List.filterMap_append,
        List.filterMap_cons_none hf]

theorem extract_version_u32_bound_spec_witness :
    check_for_duplicate_versions
        ["V1__a.sql".toList, "R__b.sql".toList, "V2__c.sql".toList] =
      check_for_duplicate_versions ["V1__a.sql".toList, "V2__c.sql".toList] :=
  ((extract_version_u32_bound_spec).2.2 ["V1__a.sql".toList]
    ["V2__c.sql".toList] ("R__b.sql".toList) (by decide)).1

theorem windowsLoop_eq_spec : ∀ (l : List Nat), l.Sorted (· ≤ ·) →
    (∀ x ∈ l, x < 4294967296) → windowsLoop l = spec_skipped_result l
  | [] => by intro _ _; rfl
  | [a] => by intro _ _; rfl
  | a :: b :: rest => by
    intro hs hb
    obtain ⟨ha, hs'⟩ := List.sorted_cons.mp hs
    have hab : a ≤ b := ha b (by simp)
    have hba : a < 4294967296 := hb a (by simp)
    have hbb : b < 4294967296 := hb b (by simp)
    by_cases h : b = a + 1
    · subst h
      have hmod : (a + 1) % 4294967296 = a + 1 := Nat.mod_eq_of_lt (by omega)
      have ih := windowsLoop_eq_spec ((a + 1) :: rest) hs'
        (fun x hx => hb x (List.mem_cons_of_mem a hx))
      rw [windowsLoop, hmod, if_neg (by omega), ih]
      simp only [spec_skipped_result]
      rw [spec_first_violation, if_neg (by omega)]
    · have hne : b ≠ (a + 1) % 4294967296 := by omega
      rw [windowsLoop, if_pos hne]
      simp only [spec_skipped_result]
      rw [spec_first_violation, if_pos h]

theorem spec_first_violation_of_short (l : List Nat) (h : l.length ≤ 1) :
    spec_first_violation l = none := by
  match l with
  | [] => rfl
  | [a] => rfl
  | a :: b :: rest => simp at h

/-- Claim C2: the skipped-version check inspects exactly the extractable
versions sorted ascending (a sorted permutation of them); it succeeds when no
adjacent sorted pair violates contiguity — in particular on an empty or
one-element version list — and fails on the first adjacent sorted pair whose
difference is not exactly 1, duplicates included (last conjunct), with the
message `From V{lower} to V{upper}`. -/
theorem check_for_skipped_versions_spec (file_names : List (List Char)) :
    ((spec_sorted_versions file_names).Perm
      (file_names.filterMap extract_version)) ∧
    (spec_sorted_versions file_names).Sorted (· ≤ ·) ∧
    (spec_first_violation (spec_sorted_versions file_names) = none →
      check_for_skipped_versions file_names = .ok ()) ∧
    (∀ a b, spec_first_violation (spec_sorted_versions file_names) = some (a, b) →
      check_for_skipped_versions file_names =
        .error (SkippedVersion (fromToMsg a b))) ∧
    ((file_names.filterMap extract_version).length ≤ 1 →
      check_for_skipped_versions file_names = .ok ()) ∧
    check_for_skipped_versions ["V1__a.sql".toList, "V1__b.sql".toList] =
      .error (SkippedVersion ("From V1 to V1".toList)) := by
  have hperm : (spec_sorted_versions file_names).Perm
      (file_names.filterMap extract_version) :=
    List.perm_insertionSort _ _
  have hsorted : (spec_sorted_versions file_names).Sorted (· ≤ ·) :=
    List.sorted_insertionSort _ _
  have hbound : ∀ x ∈ spec_sorted_versions file_names, x < 4294967296 := by
    intro x hx
    obtain ⟨s, _, hes⟩ := List.mem_filterMap.mp (hperm.subset hx)
    exact extract_version_lt s x hes
  have hkey : check_for_skipped_versions file_names =
      spec_skipped_result (spec_sorted_versions file_names) := by
    rw [check_for_skipped_versions]
    by_cases he : (file_names.filterMap extract_version).isEmpty
    · rw [if_pos he]
      have he' : file_names.filterMap extract_version = [] :=
        List.isEmpty_iff.mp he
      rw [spec_sorted_versions, he']
      rfl
    · rw [if_neg he]
      exact windowsLoop_eq_spec (spec_sorted_versions file_names) hsorted hbound
  refine ⟨hperm, hsorted, ?_, ?_, ?_, by decide⟩
  · intro hnone
    rw [hkey, spec_skipped_result, hnone]
  · intro a b hsome
    rw [hkey, spec_skipped_result, hsome]
  · intro hlen
    have hnone : spec_first_violation (spec_sorted_versions file_names) = none := by
      apply spec_first_violation_of_short
      rw [hperm.length_eq]
      exact hlen
    rw [hkey, spec_skipped_result, hnone]

theorem check_for_skipped_versions_spec_witness :
    check_for_skipped_versions
        ["V1__init.sql".toList, "V3__add_table.sql".toList] =
      .error (SkippedVersion ("From V1 to V3".toList)) :=
  (check_for_skipped_versions_spec _).2.2.2.1 1 3 (by decide)
